import Mathlib

/-!
Verification of the palette-extraction script (`extract-color-palettes.py`).

The embedding mirrors the source:
  * a `RasterImage` is the flat pixel list `list(image.getdata())`;
  * `opaquePixels` is the alpha filter (line 35-38);
  * `quantizeChannel` is `round(v / 15) * 15` (lines 47-49): for an integer
    `v`, `v / 15` is never exactly halfway between two integers, so Python's
    banker's rounding coincides with `floor(v / 15 + 1 / 2)`, i.e. with
    `(2 * v + 15) / 30` in integer arithmetic;
  * `counter` is `collections.Counter` over the quantized list: an
    insertion-ordered association list whose first occurrence of each key
    determines its position (Python dict semantics);
  * `sortDesc` is the stable descending sort `filtered.sort(key=count,
    reverse=True)`, modelled by a stable insertion sort;
  * `roundCenti` is `round(count / len(opaque) * 100, 2)` expressed in exact
    arithmetic as half-to-even rounding of `10000 * count / len(opaque)`,
    the result being that integer number of hundredths of a percent;
  * `hexColor` is the format string `#{r:02X}{g:02X}{b:02X}`;
  * `buildReport` is the batch loop of `main` (lines 84-105): per-asset
    try/except, successes written into the insertion-ordered dict `output`.
-/

structure Pixel where
  r : ℕ
  g : ℕ
  b : ℕ
  a : ℕ
deriving DecidableEq

abbrev RasterImage := List Pixel

abbrev QC := ℕ × ℕ × ℕ

/-- Lines 35-38: keep pixels with alpha strictly above 127. -/
def opaquePixels (img : RasterImage) : List Pixel :=
  img.filter (fun p => 127 < p.a)

/-- Lines 47-49: `round(v / 15) * 15` on an integer channel value. -/
def quantizeChannel (v : ℕ) : ℕ :=
  ((2 * v + 15) / 30) * 15

/-- Lines 45-50: the quantization key of a pixel; alpha is dropped. -/
def quantize (p : Pixel) : QC :=
  (quantizeChannel p.r, quantizeChannel p.g, quantizeChannel p.b)

/-- The quantized sequence built from the opaque pixels (lines 44-50). -/
def quantList (img : RasterImage) : List QC :=
  (opaquePixels img).map quantize

/-- One step of `Counter`: increment the first matching key, or append a
fresh key with count 1 at the end (Python dict insertion order). -/
def bump : List (QC × ℕ) → QC → List (QC × ℕ)
  | [], q => [(q, 1)]
  | (k, c) :: rest, q =>
      if k = q then (k, c + 1) :: rest else (k, c) :: bump rest q

/-- Line 53: `Counter(quantized)` as an insertion-ordered association list. -/
def counter (l : List QC) : List (QC × ℕ) :=
  l.foldl bump []

/-- Stable descending insertion: `x` passes exactly the strictly larger
counts, so it lands before every equal count that was already present. -/
def insertDesc (x : QC × ℕ) : List (QC × ℕ) → List (QC × ℕ)
  | [] => [x]
  | y :: ys => if y.2 ≤ x.2 then x :: y :: ys else y :: insertDesc x ys

/-- Line 60: `filtered.sort(key=lambda x: x[1], reverse=True)` - a stable
descending sort by count. -/
def sortDesc (l : List (QC × ℕ)) : List (QC × ℕ) :=
  l.foldr insertDesc []

/-- Uppercase hexadecimal digit. -/
def hexDigit (n : ℕ) : Char :=
  if n < 10 then Char.ofNat (48 + n) else Char.ofNat (55 + n)

/-- Format a byte value as in the f-string: two uppercase hex digits,
zero padded. -/
def byteHex (n : ℕ) : List Char :=
  [hexDigit (n / 16), hexDigit (n % 16)]

/-- Line 65: the hex color string of a quantized color. -/
def hexColor (q : QC) : String :=
  String.mk ('#' :: (byteHex q.1 ++ byteHex q.2.1 ++ byteHex q.2.2))

/-- Lines 66 and 70: `round(count / N * 100, 2)` in exact arithmetic -
half-to-even rounding of `10000 * count / N`, in hundredths of a percent. -/
def roundCenti (c N : ℕ) : ℕ :=
  if 2 * (10000 * c % N) < N then 10000 * c / N
  else if N < 2 * (10000 * c % N) then 10000 * c / N + 1
  else if (10000 * c / N) % 2 = 0 then 10000 * c / N
  else 10000 * c / N + 1

structure PaletteEntry where
  color : String
  pixelCount : ℕ
  percentage : ℚ
deriving DecidableEq

/-- Lines 67-71: format one surviving (color, count) pair.  The percentage
is the exact rational `roundCenti p.2 N / 100`. -/
def mkEntry (N : ℕ) (p : QC × ℕ) : PaletteEntry :=
  { color := hexColor p.1
    pixelCount := p.2
    percentage := mkRat (roundCenti p.2 N) 100 }

/-- Lines 56-59: keep the colors whose count meets `min_pixels`. -/
def filteredCounts (img : RasterImage) (minp : ℕ) : List (QC × ℕ) :=
  (counter (quantList img)).filter (fun p => minp ≤ p.2)

/-- Line 60: the surviving pairs after the stable descending sort,
before truncation. -/
def rankedAll (img : RasterImage) (minp : ℕ) : List (QC × ℕ) :=
  sortDesc (filteredCounts img minp)

/-- Line 64: `filtered[:max_colors]`. -/
def ranked (img : RasterImage) (maxc minp : ℕ) : List (QC × ℕ) :=
  (rankedAll img minp).take maxc

/-- Lines 25-73: the whole extractor. -/
def extract_color_palette (img : RasterImage) (maxc minp : ℕ) :
    List PaletteEntry :=
  if opaquePixels img = [] then []
  else (ranked img maxc minp).map (mkEntry (opaquePixels img).length)

structure AssetPaletteResult where
  colors : List PaletteEntry
  colorCount : ℕ
deriving DecidableEq

/-- Lines 95-100: the value stored for one successfully processed asset
(`max_colors=5`, `min_pixels=100` as in `main`). -/
def processAsset (img : RasterImage) : AssetPaletteResult :=
  { colors := extract_color_palette img 5 100
    colorCount := (extract_color_palette img 5 100).length }

/-- The loader either yields a decoded image or raises (modelled as an
error message): `extract_png_from_svg` plus `Image.open`. -/
abbrev LoadResult := Except String RasterImage

/-- Python dict assignment `output[name] = v`: replace an existing key in
place, otherwise append at the end. -/
def dictInsert (out : List (String × AssetPaletteResult)) (k : String)
    (v : AssetPaletteResult) : List (String × AssetPaletteResult) :=
  if out.any (fun e => e.1 = k) then
    out.map (fun e => if e.1 = k then (k, v) else e)
  else out ++ [(k, v)]

/-- Lines 84-105: the batch loop of `main`.  A failed load (the only
failure source, since extraction is total) is caught and skipped; a
success is recorded under the asset name. -/
def buildReport (assets : List (String × LoadResult)) :
    List (String × AssetPaletteResult) :=
  assets.foldl
    (fun out a =>
      match a.2 with
      | .ok img => dictInsert out a.1 (processAsset img)
      | .error _ => out)
    []

/-- Truncated distance on naturals; equals the absolute difference. -/
def ndist (a b : ℕ) : ℕ := (a - b) + (b - a)

/-- Number of occurrences of a quantized color in a list. -/
def countQ : List QC → QC → ℕ
  | [], _ => 0
  | x :: t, q => countQ t q + if x = q then 1 else 0

/-- Index of the first occurrence of a color (length if absent). -/
def firstIdx : List QC → QC → ℕ
  | [], _ => 0
  | x :: t, q => if x = q then 0 else firstIdx t q + 1

/-- The set of distinct quantized colors of an image whose occurrence
count meets the threshold. -/
def qualifying (img : RasterImage) (minp : ℕ) : Finset QC :=
  (quantList img).toFinset.filter
    (fun q => minp ≤ countQ (quantList img) q)

/-- First recorded count for a key in an association list (0 if absent). -/
def lookupC : List (QC × ℕ) → QC → ℕ
  | [], _ => 0
  | (k, c) :: t, q => if k = q then c else lookupC t q

/-- The keys newly first-seen while scanning a list left to right, given the
set of keys already seen. -/
def newKeys (seen : List QC) : List QC → List QC
  | [] => []
  | q :: t => if q ∈ seen then newKeys seen t else q :: newKeys (seen ++ [q]) t

theorem bump_keys (acc : List (QC × ℕ)) (q : QC) :
    (bump acc q).map Prod.fst =
      if q ∈ acc.map Prod.fst then acc.map Prod.fst
      else acc.map Prod.fst ++ [q] := by
  induction acc with
  | nil => simp [bump]
  | cons x t ih =>
    obtain ⟨k, c⟩ := x
    by_cases h : k = q
    · subst h
      simp [bump]
    · have h2 : ¬ q = k := fun e => h e.symm
      by_cases h3 : q ∈ t.map Prod.fst <;>
        simp [bump, h, h2, h3, ih]

theorem lookupC_bump_self (acc : List (QC × ℕ)) (q : QC) :
    lookupC (bump acc q) q = lookupC acc q + 1 := by
  induction acc with
  | nil => simp [bump, lookupC]
  | cons x t ih =>
    obtain ⟨k, c⟩ := x
    by_cases h : k = q <;> simp [bump, lookupC, h, ih]

theorem lookupC_bump_ne (acc : List (QC × ℕ)) (x q : QC) (h : q ≠ x) :
    lookupC (bump acc x) q = lookupC acc q := by
  have hxq : ¬ x = q := fun e => h e.symm
  induction acc with
  | nil => simp [bump, lookupC, hxq]
  | cons y t ih =>
    obtain ⟨k, c⟩ := y
    by_cases hk : k = x
    · subst hk
      simp [bump, lookupC, hxq]
    · simp [bump, lookupC, hk, ih]

theorem bump_sum (acc : List (QC × ℕ)) (q : QC) :
    ((bump acc q).map Prod.snd).sum = (acc.map Prod.snd).sum + 1 := by
  induction acc with
  | nil => simp [bump]
  | cons x t ih =>
    obtain ⟨k, c⟩ := x
    by_cases h : k = q
    · simp [bump, h]
      omega
    · simp [bump, h, ih]
      omega

theorem bump_snd_pos (acc : List (QC × ℕ)) (q : QC)
    (h : ∀ p ∈ acc, 1 ≤ p.2) : ∀ p ∈ bump acc q, 1 ≤ p.2 := by
  induction acc with
  | nil =>
    intro p hp
    simp [bump] at hp
    simp [hp]
  | cons x t ih =>
    obtain ⟨k, c⟩ := x
    intro p hp
    by_cases hk : k = q
    · subst hk
      simp [bump] at hp
      rcases hp with h1 | h1
      · subst h1; omega
      · exact h p (by simp [h1])
    · simp [bump, hk] at hp
      rcases hp with h1 | h1
      · subst h1
        exact h (k, c) (by simp)
      · exact ih (fun p hp => h p (by simp [hp])) p h1

theorem foldl_bump_lookup (l : List QC) (acc : List (QC × ℕ)) (q : QC) :
    lookupC (l.foldl bump acc) q = lookupC acc q + countQ l q := by
  induction l generalizing acc with
  | nil => simp [countQ]
  | cons x t ih =>
    simp only [List.foldl_cons, countQ]
    rw [ih]
    by_cases h : x = q
    · subst h
      rw [lookupC_bump_self, if_pos rfl]
      omega
    · rw [lookupC_bump_ne _ _ _ (fun e => h e.symm), if_neg h]
      omega

theorem foldl_bump_sum (l : List QC) (acc : List (QC × ℕ)) :
    ((l.foldl bump acc).map Prod.snd).sum = (acc.map Prod.snd).sum + l.length := by
  induction l generalizing acc with
  | nil => simp
  | cons x t ih =>
    simp only [List.foldl_cons, List.length_cons]
    rw [ih, bump_sum]
    omega

theorem foldl_bump_keys (l : List QC) (acc : List (QC × ℕ)) :
    (l.foldl bump acc).map Prod.fst =
      acc.map Prod.fst ++ newKeys (acc.map Prod.fst) l := by
  induction l generalizing acc with
  | nil => simp [newKeys]
  | cons x t ih =>
    simp only [List.foldl_cons]
    rw [ih, bump_keys]
    by_cases h : x ∈ acc.map Prod.fst
    · simp [newKeys, h]
    · simp [newKeys, h, List.append_assoc]

theorem mem_newKeys (l : List QC) :
    ∀ (seen : List QC) (q : QC), q ∈ newKeys seen l → q ∉ seen ∧ q ∈ l := by
  induction l with
  | nil => intro seen q h; simp [newKeys] at h
  | cons x t ih =>
    intro seen q h
    by_cases hx : x ∈ seen
    · simp only [newKeys, if_pos hx] at h
      have := ih seen q h
      exact ⟨this.1, by simp [this.2]⟩
    · simp only [newKeys, if_neg hx] at h
      rcases List.mem_cons.mp h with h1 | h1
      · subst h1; exact ⟨hx, by simp⟩
      · have := ih (seen ++ [x]) q h1
        refine ⟨fun hq => this.1 (by simp [hq]), by simp [this.2]⟩

theorem newKeys_nodup (l : List QC) :
    ∀ seen : List QC, (newKeys seen l).Nodup := by
  induction l with
  | nil => intro seen; simp [newKeys]
  | cons x t ih =>
    intro seen
    by_cases hx : x ∈ seen
    · simp only [newKeys, if_pos hx]
      exact ih seen
    · simp only [newKeys, if_neg hx]
      refine List.nodup_cons.mpr ⟨fun hmem => ?_, ih (seen ++ [x])⟩
      exact (mem_newKeys t (seen ++ [x]) x hmem).1 (by simp)

theorem firstIdx_cons (x : QC) (t : List QC) (q : QC) :
    firstIdx (x :: t) q = if x = q then 0 else firstIdx t q + 1 := rfl

theorem newKeys_pairwise (l : List QC) :
    ∀ seen : List QC,
      (newKeys seen l).Pairwise (fun a b => firstIdx l a < firstIdx l b) := by
  induction l with
  | nil => intro seen; simp [newKeys]
  | cons x t ih =>
    intro seen
    by_cases hx : x ∈ seen
    · simp only [newKeys, if_pos hx]
      refine ((ih seen).imp_of_mem ?_)
      intro a b ha hb hab
      have hna : a ≠ x := fun e => (mem_newKeys t seen a ha).1 (e ▸ hx)
      have hnb : b ≠ x := fun e => (mem_newKeys t seen b hb).1 (e ▸ hx)
      rw [firstIdx_cons, firstIdx_cons, if_neg (fun e => hna e.symm),
        if_neg (fun e => hnb e.symm)]
      omega
    · simp only [newKeys, if_neg hx]
      refine List.pairwise_cons.mpr ⟨?_, ?_⟩
      · intro b hb
        have hnb : b ≠ x := fun e => (mem_newKeys t (seen ++ [x]) b hb).1 (by simp [e])
        rw [firstIdx_cons, firstIdx_cons, if_pos rfl, if_neg (fun e => hnb e.symm)]
        omega
      · refine ((ih (seen ++ [x])).imp_of_mem ?_)
        intro a b ha hb hab
        have hna : a ≠ x := fun e => (mem_newKeys t (seen ++ [x]) a ha).1 (by simp [e])
        have hnb : b ≠ x := fun e => (mem_newKeys t (seen ++ [x]) b hb).1 (by simp [e])
        rw [firstIdx_cons, firstIdx_cons, if_neg (fun e => hna e.symm),
          if_neg (fun e => hnb e.symm)]
        omega

theorem counter_lookup (l : List QC) (q : QC) :
    lookupC (counter l) q = countQ l q := by
  have := foldl_bump_lookup l [] q
  simpa [counter, lookupC] using this

theorem counter_sum (l : List QC) :
    ((counter l).map Prod.snd).sum = l.length := by
  have := foldl_bump_sum l []
  simpa [counter] using this

theorem counter_keys (l : List QC) :
    (counter l).map Prod.fst = newKeys [] l := by
  have := foldl_bump_keys l []
  simpa [counter] using this

theorem counter_keys_nodup (l : List QC) :
    ((counter l).map Prod.fst).Nodup := by
  rw [counter_keys]
  exact newKeys_nodup l []

theorem counter_keys_pairwise (l : List QC) :
    ((counter l).map Prod.fst).Pairwise
      (fun a b => firstIdx l a < firstIdx l b) := by
  rw [counter_keys]
  exact newKeys_pairwise l []

theorem counter_snd_pos (l : List QC) :
    ∀ p ∈ counter l, 1 ≤ p.2 := by
  have main : ∀ (l : List QC) (acc : List (QC × ℕ)),
      (∀ p ∈ acc, 1 ≤ p.2) → ∀ p ∈ l.foldl bump acc, 1 ≤ p.2 := by
    intro l
    induction l with
    | nil => intro acc h; simpa using h
    | cons x t ih =>
      intro acc h
      exact ih (bump acc x) (bump_snd_pos acc x h)
  exact main l [] (by simp)

theorem countQ_pos_iff (l : List QC) (q : QC) : 1 ≤ countQ l q ↔ q ∈ l := by
  induction l with
  | nil => simp [countQ]
  | cons x t ih =>
    by_cases h : x = q
    · subst h; simp [countQ]
    · simp [countQ, h, ih]
      exact fun e => absurd e.symm h

theorem mem_keys_foldl (l : List QC) (acc : List (QC × ℕ)) (q : QC) :
    q ∈ (l.foldl bump acc).map Prod.fst ↔ q ∈ acc.map Prod.fst ∨ q ∈ l := by
  rw [foldl_bump_keys]
  constructor
  · intro h
    rcases List.mem_append.mp h with h | h
    · exact Or.inl h
    · exact Or.inr (mem_newKeys l _ q h).2
  · intro h
    rcases h with h | h
    · exact List.mem_append.mpr (Or.inl h)
    · by_cases hacc : q ∈ acc.map Prod.fst
      · exact List.mem_append.mpr (Or.inl hacc)
      · refine List.mem_append.mpr (Or.inr ?_)
        have main : ∀ (l : List QC) (seen : List QC) (q : QC),
            q ∈ l → q ∉ seen → q ∈ newKeys seen l := by
          intro l
          induction l with
          | nil => intro seen q h; simp at h
          | cons x t ih2 =>
            intro seen q hmem hns
            rcases List.mem_cons.mp hmem with h1 | h1
            · subst h1
              simp [newKeys, hns]
            · by_cases hx : x ∈ seen
              · simp only [newKeys, if_pos hx]
                exact ih2 seen q h1 hns
              · simp only [newKeys, if_neg hx]
                by_cases hqx : q = x
                · subst hqx; simp
                · refine List.mem_cons.mpr (Or.inr ?_)
                  exact ih2 (seen ++ [x]) q h1 (by simp [hns, hqx])
        exact main l _ q h hacc

theorem mem_keys_counter (l : List QC) (q : QC) :
    q ∈ (counter l).map Prod.fst ↔ q ∈ l := by
  have := mem_keys_foldl l [] q
  simpa [counter] using this

theorem lookupC_eq_of_mem (l : List (QC × ℕ)) (q : QC) (c : ℕ)
    (hnd : (l.map Prod.fst).Nodup) (hm : (q, c) ∈ l) : lookupC l q = c := by
  induction l with
  | nil => simp at hm
  | cons x t ih =>
    obtain ⟨k, d⟩ := x
    simp only [List.map_cons, List.nodup_cons] at hnd
    rcases List.mem_cons.mp hm with h1 | h1
    · cases h1
      simp [lookupC]
    · have hk : ¬ k = q := by
        intro e
        subst e
        exact hnd.1 (List.mem_map.mpr ⟨(k, c), h1, rfl⟩)
      simp only [lookupC, if_neg hk]
      exact ih hnd.2 h1

theorem mem_of_mem_keys (l : List (QC × ℕ)) (q : QC)
    (h : q ∈ l.map Prod.fst) : (q, lookupC l q) ∈ l := by
  induction l with
  | nil => simp at h
  | cons x t ih =>
    obtain ⟨k, d⟩ := x
    by_cases hk : k = q
    · subst hk
      simp [lookupC]
    · simp only [lookupC, if_neg hk]
      refine List.mem_cons.mpr (Or.inr (ih ?_))
      rcases List.mem_map.mp h with ⟨p, hp, he⟩
      rcases List.mem_cons.mp hp with h1 | h1
      · exact absurd (by rw [h1] at he; exact he) hk
      · exact List.mem_map.mpr ⟨p, h1, he⟩

theorem mem_counter_iff (l : List QC) (q : QC) (c : ℕ) :
    (q, c) ∈ counter l ↔ countQ l q = c ∧ 1 ≤ c := by
  constructor
  · intro h
    have h1 : lookupC (counter l) q = c :=
      lookupC_eq_of_mem _ _ _ (counter_keys_nodup l) h
    rw [counter_lookup] at h1
    exact ⟨h1, h1 ▸ counter_snd_pos l (q, c) h⟩
  · rintro ⟨h1, h2⟩
    have hq : q ∈ l := (countQ_pos_iff l q).mp (h1 ▸ h2)
    have hk : q ∈ (counter l).map Prod.fst := (mem_keys_counter l q).mpr hq
    have := mem_of_mem_keys _ _ hk
    rwa [counter_lookup, h1] at this

theorem sortDesc_cons (x : QC × ℕ) (l : List (QC × ℕ)) :
    sortDesc (x :: l) = insertDesc x (sortDesc l) := rfl

theorem insertDesc_perm (x : QC × ℕ) (l : List (QC × ℕ)) :
    List.Perm (insertDesc x l) (x :: l) := by
  induction l with
  | nil => rfl
  | cons y ys ih =>
    by_cases h : y.2 ≤ x.2
    · simp [insertDesc, h]
    · simp only [insertDesc, if_neg h]
      exact (ih.cons y).trans (List.Perm.swap x y ys)

theorem sortDesc_perm (l : List (QC × ℕ)) : List.Perm (sortDesc l) l := by
  induction l with
  | nil => rfl
  | cons x xs ih =>
    rw [sortDesc_cons]
    exact (insertDesc_perm x (sortDesc xs)).trans (ih.cons x)

theorem insertDesc_sorted (x : QC × ℕ) (l : List (QC × ℕ))
    (h : l.Pairwise (fun a b => b.2 ≤ a.2)) :
    (insertDesc x l).Pairwise (fun a b => b.2 ≤ a.2) := by
  induction l with
  | nil => simp [insertDesc]
  | cons y ys ih =>
    rcases List.pairwise_cons.mp h with ⟨hy, hys⟩
    by_cases hc : y.2 ≤ x.2
    · simp only [insertDesc, if_pos hc]
      refine List.pairwise_cons.mpr ⟨?_, h⟩
      intro b hb
      rcases List.mem_cons.mp hb with h1 | h1
      · subst h1; exact hc
      · exact le_trans (hy b h1) hc
    · simp only [insertDesc, if_neg hc]
      refine List.pairwise_cons.mpr ⟨?_, ih hys⟩
      intro b hb
      rcases List.mem_cons.mp ((insertDesc_perm x ys).mem_iff.mp hb) with h1 | h1
      · subst h1; omega
      · exact hy b h1

theorem sortDesc_sorted (l : List (QC × ℕ)) :
    (sortDesc l).Pairwise (fun a b => b.2 ≤ a.2) := by
  induction l with
  | nil => simp [sortDesc]
  | cons x xs ih =>
    rw [sortDesc_cons]
    exact insertDesc_sorted x (sortDesc xs) ih

theorem insertDesc_filter_count (x : QC × ℕ) (l : List (QC × ℕ)) (c : ℕ) :
    (insertDesc x l).filter (fun p => p.2 = c) =
      if x.2 = c then x :: l.filter (fun p => p.2 = c)
      else l.filter (fun p => p.2 = c) := by
  induction l with
  | nil => by_cases hx : x.2 = c <;> simp [insertDesc, hx]
  | cons y ys ih =>
    by_cases hc : y.2 ≤ x.2
    · simp only [insertDesc, if_pos hc]
      by_cases hx : x.2 = c <;> simp [List.filter_cons, hx]
    · simp only [insertDesc, if_neg hc]
      by_cases hx : x.2 = c
      · have hy : ¬ y.2 = c := by omega
        simp [List.filter_cons, hy, ih, hx]
      · simp [List.filter_cons, ih, hx]

theorem sortDesc_filter_count (l : List (QC × ℕ)) (c : ℕ) :
    (sortDesc l).filter (fun p => p.2 = c) = l.filter (fun p => p.2 = c) := by
  induction l with
  | nil => rfl
  | cons x xs ih =>
    rw [sortDesc_cons, insertDesc_filter_count]
    by_cases hx : x.2 = c <;> simp [List.filter_cons, hx, ih]

theorem roundCenti_le (c N : ℕ) (h0 : 0 < N) (h : c ≤ N) :
    roundCenti c N ≤ 10000 := by
  have hdm := Nat.div_add_mod (10000 * c) N
  have hr : 10000 * c % N < N := Nat.mod_lt _ h0
  have hd : 10000 * c / N ≤ 10000 := by
    have h1 : 10000 * c ≤ 10000 * N := Nat.mul_le_mul_left _ h
    have h2 : 10000 * c / N ≤ 10000 * N / N := Nat.div_le_div_right h1
    rwa [Nat.mul_div_left 10000 h0] at h2
  by_cases hd10 : 10000 * c / N = 10000
  · rw [hd10] at hdm
    have hr0 : 10000 * c % N = 0 := by
      have h1 : 10000 * c ≤ 10000 * N := Nat.mul_le_mul_left _ h
      omega
    unfold roundCenti
    rw [hr0, if_pos (by omega)]
    omega
  · unfold roundCenti
    split_ifs <;> omega

theorem roundCenti_half_le (c N : ℕ) (h0 : 0 < N) :
    2 * N * roundCenti c N ≤ 2 * (10000 * c) + N := by
  have hdm := Nat.div_add_mod (10000 * c) N
  have hr : 10000 * c % N < N := Nat.mod_lt _ h0
  have e1 : 2 * N * (10000 * c / N) = 2 * (N * (10000 * c / N)) := by ring
  have e2 : 2 * N * (10000 * c / N + 1) =
      2 * (N * (10000 * c / N)) + 2 * N := by ring
  unfold roundCenti
  split_ifs
  · rw [e1]; omega
  · rw [e2]; omega
  · rw [e1]; omega
  · rw [e2]; omega

theorem hexDigit_inj :
    ∀ m, m < 16 → ∀ n, n < 16 → hexDigit m = hexDigit n → m = n := by decide

theorem byteHex_inj (m n : ℕ) (hm : m < 256) (hn : n < 256)
    (h : byteHex m = byteHex n) : m = n := by
  simp only [byteHex, List.cons.injEq, and_true] at h
  have h1 := hexDigit_inj (m / 16) (by omega) (n / 16) (by omega) h.1
  have h2 := hexDigit_inj (m % 16) (by omega) (n % 16) (by omega) h.2
  omega

theorem hexColor_inj (q p : QC)
    (hq : q.1 ≤ 255 ∧ q.2.1 ≤ 255 ∧ q.2.2 ≤ 255)
    (hp : p.1 ≤ 255 ∧ p.2.1 ≤ 255 ∧ p.2.2 ≤ 255)
    (h : hexColor q = hexColor p) : q = p := by
  obtain ⟨q1, q2, q3⟩ := q
  obtain ⟨p1, p2, p3⟩ := p
  have h := congrArg String.data h
  simp only [hexColor, List.cons.injEq, true_and] at h
  simp only [byteHex, List.cons_append, List.nil_append, List.cons.injEq,
    and_true] at h
  obtain ⟨ha1, ha2, hb1, hb2, hc1, hc2⟩ := h
  simp only at hq hp
  have e1 := hexDigit_inj (q1 / 16) (by omega) (p1 / 16) (by omega) ha1
  have e2 := hexDigit_inj (q1 % 16) (by omega) (p1 % 16) (by omega) ha2
  have e3 := hexDigit_inj (q2 / 16) (by omega) (p2 / 16) (by omega) hb1
  have e4 := hexDigit_inj (q2 % 16) (by omega) (p2 % 16) (by omega) hb2
  have e5 := hexDigit_inj (q3 / 16) (by omega) (p3 / 16) (by omega) hc1
  have e6 := hexDigit_inj (q3 % 16) (by omega) (p3 % 16) (by omega) hc2
  have : q1 = p1 := by omega
  have : q2 = p2 := by omega
  have : q3 = p3 := by omega
  simp_all

set_option maxRecDepth 4000 in
/-- Bundled facts about the channel quantizer on the 8-bit range, checked
by evaluation: the result is a multiple of 15, stays in range, is within 7
of the input, and is strictly closer to the input than every other
multiple of 15 that fits in a byte. -/
theorem quantizeChannel_facts :
    ∀ v, v < 256 → quantizeChannel v % 15 = 0 ∧ quantizeChannel v ≤ 255 ∧
      ndist (quantizeChannel v) v ≤ 7 ∧
      (∀ k, k < 18 → 15 * k ≠ quantizeChannel v →
        ndist (quantizeChannel v) v < ndist (15 * k) v) := by decide

theorem extract_eq_map (img : RasterImage) (maxc minp : ℕ) :
    extract_color_palette img maxc minp =
      (ranked img maxc minp).map (mkEntry (opaquePixels img).length) := by
  unfold extract_color_palette
  split_ifs with h
  · simp [ranked, rankedAll, filteredCounts, quantList, h, counter, sortDesc]
  · rfl

theorem mem_ranked (img : RasterImage) (maxc minp : ℕ) (p : QC × ℕ)
    (h : p ∈ ranked img maxc minp) :
    p ∈ counter (quantList img) ∧ minp ≤ p.2 := by
  have h1 : p ∈ rankedAll img minp := List.mem_of_mem_take h
  have h2 : p ∈ filteredCounts img minp :=
    (sortDesc_perm (filteredCounts img minp)).mem_iff.mp h1
  have h3 := List.mem_filter.mp h2
  exact ⟨h3.1, by simpa using h3.2⟩

/-- C5: an image in which every pixel has alpha at most 127 has no opaque
pixels, and `extract_color_palette` returns the empty sequence for every
`max_colors` and `min_pixels`, with no division performed. -/
theorem extract_all_transparent_empty (img : RasterImage) (maxc minp : ℕ)
    (h : ∀ p ∈ img, p.a ≤ 127) :
    extract_color_palette img maxc minp = [] := by
  have hop : opaquePixels img = [] := by
    refine List.filter_eq_nil_iff.mpr ?_
    intro p hp
    simpa using h p hp
  unfold extract_color_palette
  rw [if_pos hop]

/-- Closed instance of `extract_all_transparent_empty`. -/
theorem extract_all_transparent_empty_witness :
    extract_color_palette [⟨0, 0, 0, 50⟩, ⟨200, 10, 5, 127⟩] 5 100 = [] :=
  extract_all_transparent_empty [⟨0, 0, 0, 50⟩, ⟨200, 10, 5, 127⟩] 5 100
    (by decide)

/-- C4: the returned sequence is sorted by pixelCount in descending order:
every entry is at least as frequent as each entry after it (hence every
adjacent pair is ordered). -/
theorem palette_sorted_desc (img : RasterImage) (maxc minp : ℕ) :
    (extract_color_palette img maxc minp).Pairwise
      (fun a b => b.pixelCount ≤ a.pixelCount) := by
  rw [extract_eq_map]
  exact ((sortDesc_sorted (filteredCounts img minp)).sublist
      (List.take_sublist maxc (rankedAll img minp))).map
    (mkEntry (opaquePixels img).length) (fun a b hab => hab)

/-- C8: the extractor is total - if it returns any entry the divisor
`len(opaque_pixels)` is positive, every entry's percentage is exactly the
rounded ratio against that divisor, and every entry's count is positive. -/
theorem extract_total (img : RasterImage) (maxc minp : ℕ) :
    (extract_color_palette img maxc minp ≠ [] →
      0 < (opaquePixels img).length) ∧
    ∀ e ∈ extract_color_palette img maxc minp,
      e.percentage =
        mkRat (roundCenti e.pixelCount (opaquePixels img).length) 100 ∧
      1 ≤ e.pixelCount := by
  constructor
  · intro hne
    by_cases hop : opaquePixels img = []
    · exact absurd (by unfold extract_color_palette; rw [if_pos hop]) hne
    · exact List.length_pos.mpr hop
  · intro e he
    rw [extract_eq_map] at he
    rcases List.mem_map.mp he with ⟨p, hp, rfl⟩
    have hc := (mem_ranked img maxc minp p hp).1
    refine ⟨rfl, ?_⟩
    exact counter_snd_pos (quantList img) p hc

/-- Closed instance of `extract_total`. -/
theorem extract_total_witness :
    0 < (opaquePixels [⟨200, 10, 5, 255⟩]).length :=
  (extract_total [⟨200, 10, 5, 255⟩] 5 1).1 (by decide)

/-- C1: on the single fully opaque pixel (200, 10, 5) with `min_pixels = 1`
and any `max_colors` of at least 1, the result is one entry with color
"#C30F00" (the buckets are 195, 15, 0), count 1 and percentage 100. -/
theorem extract_single_pixel (maxc : ℕ) (h : 1 ≤ maxc) :
    extract_color_palette [⟨200, 10, 5, 255⟩] maxc 1 =
      [{ color := "#C30F00", pixelCount := 1, percentage := 100 }] := by
  obtain ⟨k, rfl⟩ : ∃ k, maxc = k + 1 := ⟨maxc - 1, by omega⟩
  rw [extract_eq_map]
  have h1 : rankedAll [⟨200, 10, 5, 255⟩] 1 = [((195, 15, 0), 1)] := by decide
  have h2 : (opaquePixels [⟨200, 10, 5, 255⟩]).length = 1 := by decide
  rw [h2]
  show (((rankedAll [⟨200, 10, 5, 255⟩] 1).take (k + 1)).map (mkEntry 1)) = _
  rw [h1]
  simp only [List.take_succ_cons, List.take_nil, List.map_cons, List.map_nil]
  decide

/-- Closed instance of `extract_single_pixel` at `max_colors = 1`. -/
theorem extract_single_pixel_witness :
    extract_color_palette [⟨200, 10, 5, 255⟩] 1 1 =
      [{ color := "#C30F00", pixelCount := 1, percentage := 100 }] :=
  extract_single_pixel 1 (le_refl 1)

/-- C3: the counting key quantizes each of red, green and blue
independently to the nearest multiple of 15 (uniquely nearest - integer
inputs never sit exactly halfway), and alpha plays no part in the key. -/
theorem quantize_nearest_multiple :
    (∀ r g b a a2 : ℕ, quantize ⟨r, g, b, a⟩ = quantize ⟨r, g, b, a2⟩) ∧
    ∀ v, v < 256 → quantizeChannel v % 15 = 0 ∧ quantizeChannel v ≤ 255 ∧
      ∀ k, 15 * k ≠ quantizeChannel v →
        ndist (quantizeChannel v) v < ndist (15 * k) v := by
  refine ⟨fun r g b a a2 => rfl, fun v hv => ?_⟩
  obtain ⟨h1, h2, h3, h4⟩ := quantizeChannel_facts v hv
  refine ⟨h1, h2, fun k hk => ?_⟩
  by_cases hk18 : k < 18
  · exact h4 k hk18 hk
  · simp only [ndist] at h3 ⊢
    omega

/-- Closed instance of `quantize_nearest_multiple` at v = 200, k = 14. -/
theorem quantize_nearest_multiple_witness :
    quantizeChannel 200 % 15 = 0 ∧ quantizeChannel 200 ≤ 255 ∧
      ndist (quantizeChannel 200) 200 < ndist (15 * 14) 200 := by
  have h := quantize_nearest_multiple.2 200 (by decide)
  exact ⟨h.1, h.2.1, h.2.2 14 (by decide)⟩

theorem countQ_le_length (l : List QC) (q : QC) : countQ l q ≤ l.length := by
  induction l with
  | nil => simp [countQ]
  | cons x t ih =>
    simp only [countQ, List.length_cons]
    split_ifs <;> omega

theorem filteredCounts_length (img : RasterImage) (minp : ℕ) :
    (filteredCounts img minp).length = (qualifying img minp).card := by
  have hsub : ((filteredCounts img minp).map Prod.fst).Sublist
      ((counter (quantList img)).map Prod.fst) :=
    (List.filter_sublist _).map Prod.fst
  have hnd : ((filteredCounts img minp).map Prod.fst).Nodup :=
    (counter_keys_nodup (quantList img)).sublist hsub
  have key : ∀ q : QC, q ∈ (filteredCounts img minp).map Prod.fst ↔
      q ∈ quantList img ∧ minp ≤ countQ (quantList img) q := by
    intro q
    constructor
    · intro h
      rcases List.mem_map.mp h with ⟨p, hp, rfl⟩
      rcases List.mem_filter.mp hp with ⟨hmem, hpred⟩
      rcases (mem_counter_iff _ _ _).mp hmem with ⟨hcq, hpos⟩
      refine ⟨(countQ_pos_iff _ _).mp (by omega), ?_⟩
      rw [hcq]
      simpa using hpred
    · rintro ⟨hq, hc⟩
      have h1 : 1 ≤ countQ (quantList img) q := (countQ_pos_iff _ _).mpr hq
      have h2 : (q, countQ (quantList img) q) ∈ counter (quantList img) :=
        (mem_counter_iff _ _ _).mpr ⟨rfl, h1⟩
      exact List.mem_map.mpr
        ⟨(q, countQ (quantList img) q),
          List.mem_filter.mpr ⟨h2, by simpa using hc⟩, rfl⟩
  have hts : ((filteredCounts img minp).map Prod.fst).toFinset =
      qualifying img minp := by
    apply Finset.ext
    intro q
    rw [List.mem_toFinset, key, qualifying, Finset.mem_filter,
      List.mem_toFinset]
  calc (filteredCounts img minp).length
      = ((filteredCounts img minp).map Prod.fst).length :=
        (List.length_map _ _).symm
    _ = ((filteredCounts img minp).map Prod.fst).toFinset.card :=
        (List.toFinset_card_of_nodup hnd).symm
    _ = (qualifying img minp).card := by rw [hts]

/-- C7: the result never has more entries than `max_colors`, nor more than
the number of distinct quantized colors meeting the threshold; in
particular `max_colors = 0` yields the empty sequence. -/
theorem palette_length_bound (img : RasterImage) (maxc minp : ℕ) :
    (extract_color_palette img maxc minp).length ≤
      min maxc (qualifying img minp).card ∧
    extract_color_palette img 0 minp = [] := by
  constructor
  · rw [extract_eq_map, List.length_map]
    have h1 : (ranked img maxc minp).length =
        min maxc (rankedAll img minp).length := by
      simp [ranked]
    have h2 : (rankedAll img minp).length = (filteredCounts img minp).length :=
      (sortDesc_perm _).length_eq
    rw [h1, h2, filteredCounts_length]
  · rw [extract_eq_map]
    simp [ranked]

theorem sum_roundCenti_le (S : List ℕ) (N : ℕ) (hN : 0 < N) :
    2 * N * ((S.map (fun c => roundCenti c N)).sum) ≤
      2 * (10000 * S.sum) + N * S.length := by
  induction S with
  | nil => simp
  | cons c t ih =>
    simp only [List.map_cons, List.sum_cons, List.length_cons]
    have h := roundCenti_half_le c N hN
    have e1 : 2 * N * (roundCenti c N +
        (t.map (fun c => roundCenti c N)).sum) =
        2 * N * roundCenti c N +
          2 * N * ((t.map (fun c => roundCenti c N)).sum) := by ring
    have e2 : 2 * (10000 * (c + t.sum)) + N * (t.length + 1) =
        (2 * (10000 * c) + N) + (2 * (10000 * t.sum) + N * t.length) := by
      ring
    rw [e1, e2]
    exact Nat.add_le_add h ih

theorem sum_mkRat_hundred (K : List ℕ) :
    (K.map (fun c : ℕ => mkRat c 100)).sum = ((K.sum : ℕ) : ℚ) / 100 := by
  induction K with
  | nil => simp
  | cons c t ih =>
    rw [List.map_cons, List.sum_cons, ih, Rat.mkRat_eq_div]
    push_cast
    rw [List.map_cons, List.sum_cons]
    ring

theorem ranked_sum_le (img : RasterImage) (maxc minp : ℕ) :
    ((ranked img maxc minp).map Prod.snd).sum ≤ (quantList img).length := by
  have h1 : (((ranked img maxc minp).map Prod.snd)).Sublist
      ((rankedAll img minp).map Prod.snd) :=
    (List.take_sublist _ _).map _
  have h2 : ((rankedAll img minp).map Prod.snd).sum =
      ((filteredCounts img minp).map Prod.snd).sum :=
    List.Perm.sum_eq ((sortDesc_perm _).map _)
  have h3 : (((filteredCounts img minp).map Prod.snd)).Sublist
      ((counter (quantList img)).map Prod.snd) :=
    (List.filter_sublist _).map _
  calc ((ranked img maxc minp).map Prod.snd).sum
      ≤ ((rankedAll img minp).map Prod.snd).sum :=
        h1.sum_le_sum (fun a _ => Nat.zero_le a)
    _ = ((filteredCounts img minp).map Prod.snd).sum := h2
    _ ≤ ((counter (quantList img)).map Prod.snd).sum :=
        h3.sum_le_sum (fun a _ => Nat.zero_le a)
    _ = (quantList img).length := counter_sum _

/-- C2 (amended): every percentage lies in [0, 100] and equals the
2-decimal rounding of count / opaque-count x 100; the sum of the returned
percentages can exceed 100 only by the accumulated rounding, i.e. it is at
most 100 + n / 200 where n is the number of returned entries. -/
theorem palette_percentage_bounds (img : RasterImage) (maxc minp : ℕ) :
    (∀ e ∈ extract_color_palette img maxc minp,
      0 ≤ e.percentage ∧ e.percentage ≤ 100 ∧
      e.percentage =
        mkRat (roundCenti e.pixelCount (opaquePixels img).length) 100) ∧
    ((extract_color_palette img maxc minp).map PaletteEntry.percentage).sum ≤
      100 + ((extract_color_palette img maxc minp).length : ℚ) / 200 := by
  by_cases hop : opaquePixels img = []
  · have he : extract_color_palette img maxc minp = [] := by
      unfold extract_color_palette
      rw [if_pos hop]
    rw [he]
    constructor
    · intro e he2
      simp at he2
    · simp
  · have hN : 0 < (opaquePixels img).length := List.length_pos.mpr hop
    have hql : (quantList img).length = (opaquePixels img).length := by
      simp [quantList]
    constructor
    · intro e he
      rw [extract_eq_map] at he
      rcases List.mem_map.mp he with ⟨p, hp, rfl⟩
      obtain ⟨hcm, _⟩ := mem_ranked img maxc minp p hp
      have hcq := ((mem_counter_iff _ _ _).mp hcm).1
      have hle : p.2 ≤ (opaquePixels img).length := by
        have := countQ_le_length (quantList img) p.1
        omega
      have hpe : (mkEntry (opaquePixels img).length p).percentage =
          mkRat (roundCenti p.2 (opaquePixels img).length) 100 := rfl
      refine ⟨?_, ?_, rfl⟩
      · rw [hpe, Rat.mkRat_eq_div]
        positivity
      · rw [hpe, Rat.mkRat_eq_div]
        have h100 := roundCenti_le p.2 (opaquePixels img).length hN hle
        have hc : ((roundCenti p.2 (opaquePixels img).length : ℤ) : ℚ) ≤
            10000 := by exact_mod_cast h100
        rw [div_le_iff₀ (by norm_num : (0:ℚ) < ((100:ℕ):ℚ))]
        push_cast at hc ⊢
        linarith
    · rw [extract_eq_map]
      have hmapmap : ((ranked img maxc minp).map
            (mkEntry (opaquePixels img).length)).map PaletteEntry.percentage =
          (((ranked img maxc minp).map Prod.snd).map
            (fun c => roundCenti c (opaquePixels img).length)).map
            (fun c : ℕ => mkRat c 100) := by
        simp [List.map_map, mkEntry, Function.comp]
      rw [hmapmap, sum_mkRat_hundred]
      have hXbound := sum_roundCenti_le ((ranked img maxc minp).map Prod.snd)
        (opaquePixels img).length hN
      have hS : ((ranked img maxc minp).map Prod.snd).sum ≤
          (opaquePixels img).length := by
        have := ranked_sum_le img maxc minp
        omega
      have hlen : ((ranked img maxc minp).map Prod.snd).length =
          (ranked img maxc minp).length := List.length_map _ _
      have hmul : 2 * (opaquePixels img).length *
          ((((ranked img maxc minp).map Prod.snd).map
            (fun c => roundCenti c (opaquePixels img).length)).sum) ≤
          2 * (10000 * (opaquePixels img).length) +
            (opaquePixels img).length * (ranked img maxc minp).length := by
            calc 2 * (opaquePixels img).length *
            ((((ranked img maxc minp).map Prod.snd).map
              (fun c => roundCenti c (opaquePixels img).length)).sum)
            ≤ 2 * (10000 * ((ranked img maxc minp).map Prod.snd).sum) +
              (opaquePixels img).length *
                ((ranked img maxc minp).map Prod.snd).length := hXbound
          _ ≤ 2 * (10000 * (opaquePixels img).length) +
              (opaquePixels img).length * (ranked img maxc minp).length := by
              rw [hlen]
              exact Nat.add_le_add
                (Nat.mul_le_mul_left 2 (Nat.mul_le_mul_left 10000 hS))
                (le_refl _)
      have h2X : 2 * ((((ranked img maxc minp).map Prod.snd).map
          (fun c => roundCenti c (opaquePixels img).length)).sum) ≤
          20000 + (ranked img maxc minp).length := by
        have hform : (opaquePixels img).length *
            (2 * ((((ranked img maxc minp).map Prod.snd).map
              (fun c => roundCenti c (opaquePixels img).length)).sum)) ≤
            (opaquePixels img).length *
              (20000 + (ranked img maxc minp).length) := by
          have e1 : (opaquePixels img).length *
              (2 * ((((ranked img maxc minp).map Prod.snd).map
                (fun c => roundCenti c (opaquePixels img).length)).sum)) =
              2 * (opaquePixels img).length *
                ((((ranked img maxc minp).map Prod.snd).map
                  (fun c => roundCenti c (opaquePixels img).length)).sum) := by
            ring
          have e2 : (opaquePixels img).length *
              (20000 + (ranked img maxc minp).length) =
              2 * (10000 * (opaquePixels img).length) +
                (opaquePixels img).length * (ranked img maxc minp).length := by
            ring
          rw [e1, e2]
          exact hmul
        exact Nat.le_of_mul_le_mul_left hform hN
      have hcast : (2 * ((((ranked img maxc minp).map Prod.snd).map
          (fun c => roundCenti c (opaquePixels img).length)).sum) : ℚ) ≤
          20000 + ((ranked img maxc minp).length : ℚ) := by
        exact_mod_cast h2X
      rw [List.length_map]
      push_cast at hcast ⊢
      linarith

/-- C2 counterexample: a six-pixel image splitting into buckets of
4, 1 and 1 opaque pixels yields percentages 66.67, 16.67 and 16.67,
whose sum 100.01 exceeds 100: each ratio rounds up. -/
theorem percentage_sum_exceeds_100 :
    ¬ (((extract_color_palette
        [⟨0, 0, 0, 255⟩, ⟨30, 0, 0, 255⟩, ⟨60, 0, 0, 255⟩,
         ⟨60, 0, 0, 255⟩, ⟨60, 0, 0, 255⟩, ⟨60, 0, 0, 255⟩] 5 1).map
        PaletteEntry.percentage).sum ≤ 100) := by
  have h : extract_color_palette
      [⟨0, 0, 0, 255⟩, ⟨30, 0, 0, 255⟩, ⟨60, 0, 0, 255⟩,
       ⟨60, 0, 0, 255⟩, ⟨60, 0, 0, 255⟩, ⟨60, 0, 0, 255⟩] 5 1 =
      [{ color := "#3C0000", pixelCount := 4, percentage := mkRat 6667 100 },
       { color := "#000000", pixelCount := 1, percentage := mkRat 1667 100 },
       { color := "#1E0000", pixelCount := 1, percentage := mkRat 1667 100 }] := by
    decide
  rw [h]
  simp only [List.map_cons, List.map_nil, List.sum_cons, List.sum_nil]
  rw [Rat.mkRat_eq_div, Rat.mkRat_eq_div]
  norm_num

/-- Closed instance of `palette_percentage_bounds` on the six-pixel image,
at its dominant entry. -/
theorem palette_percentage_bounds_witness :
    0 ≤ (PaletteEntry.mk "#3C0000" 4 (mkRat 6667 100)).percentage ∧
    (PaletteEntry.mk "#3C0000" 4 (mkRat 6667 100)).percentage ≤ 100 ∧
    (PaletteEntry.mk "#3C0000" 4 (mkRat 6667 100)).percentage =
      mkRat (roundCenti
        (PaletteEntry.mk "#3C0000" 4 (mkRat 6667 100)).pixelCount
        (opaquePixels
          [⟨0, 0, 0, 255⟩, ⟨30, 0, 0, 255⟩, ⟨60, 0, 0, 255⟩,
           ⟨60, 0, 0, 255⟩, ⟨60, 0, 0, 255⟩, ⟨60, 0, 0, 255⟩]).length) 100 :=
  (palette_percentage_bounds
    [⟨0, 0, 0, 255⟩, ⟨30, 0, 0, 255⟩, ⟨60, 0, 0, 255⟩,
     ⟨60, 0, 0, 255⟩, ⟨60, 0, 0, 255⟩, ⟨60, 0, 0, 255⟩] 5 1).1
    (PaletteEntry.mk "#3C0000" 4 (mkRat 6667 100)) (by decide)

theorem quantize_channels_le (p : Pixel)
    (h : p.r ≤ 255 ∧ p.g ≤ 255 ∧ p.b ≤ 255) :
    (quantize p).1 ≤ 255 ∧ (quantize p).2.1 ≤ 255 ∧ (quantize p).2.2 ≤ 255 :=
  ⟨(quantizeChannel_facts p.r (by omega)).2.1,
   (quantizeChannel_facts p.g (by omega)).2.1,
   (quantizeChannel_facts p.b (by omega)).2.1⟩

theorem mem_quantList_channels (img : RasterImage)
    (hwf : ∀ p ∈ img, p.r ≤ 255 ∧ p.g ≤ 255 ∧ p.b ≤ 255) :
    ∀ q ∈ quantList img, q.1 ≤ 255 ∧ q.2.1 ≤ 255 ∧ q.2.2 ≤ 255 := by
  intro q hq
  rcases List.mem_map.mp hq with ⟨p, hp, rfl⟩
  exact quantize_channels_le p (hwf p (List.mem_of_mem_filter hp))

/-- C6: with threshold `min_pixels` of at least 1, a quantized color seen
exactly `min_pixels - 1` times never reaches the output, while one seen
exactly `min_pixels` times survives the threshold filter and appears in
the sorted list, subject only to the `max_colors` truncation. -/
theorem threshold_boundary (img : RasterImage) (maxc minp : ℕ) (q : QC)
    (hwf : ∀ p ∈ img, p.r ≤ 255 ∧ p.g ≤ 255 ∧ p.b ≤ 255)
    (hq : q.1 ≤ 255 ∧ q.2.1 ≤ 255 ∧ q.2.2 ≤ 255)
    (hminp : 1 ≤ minp) :
    (countQ (quantList img) q = minp - 1 →
      ∀ e ∈ extract_color_palette img maxc minp, e.color ≠ hexColor q) ∧
    (countQ (quantList img) q = minp →
      (q, minp) ∈ rankedAll img minp) := by
  constructor
  · intro hcnt e he hcol
    rw [extract_eq_map] at he
    rcases List.mem_map.mp he with ⟨p, hp, rfl⟩
    obtain ⟨hcm, hge⟩ := mem_ranked img maxc minp p hp
    obtain ⟨hcq, hpos⟩ := (mem_counter_iff _ _ _).mp hcm
    have hkey : p.1 ∈ quantList img := by
      have hm : p.1 ∈ (counter (quantList img)).map Prod.fst :=
        List.mem_map.mpr ⟨p, hcm, rfl⟩
      exact (mem_keys_counter _ _).mp hm
    have hpb := mem_quantList_channels img hwf p.1 hkey
    have heq : p.1 = q := hexColor_inj p.1 q hpb hq hcol
    rw [heq] at hcq
    omega
  · intro hcnt
    have h1 : (q, minp) ∈ counter (quantList img) :=
      (mem_counter_iff _ _ _).mpr ⟨hcnt, hminp⟩
    have h2 : (q, minp) ∈ filteredCounts img minp :=
      List.mem_filter.mpr ⟨h1, by simp⟩
    exact ((sortDesc_perm _).mem_iff).mpr h2

/-- Closed instance of `threshold_boundary`: two black pixels with
`min_pixels = 2` put ((0,0,0), 2) into the ranked list. -/
theorem threshold_boundary_witness :
    ((0, 0, 0), 2) ∈ rankedAll [⟨0, 0, 0, 255⟩, ⟨0, 0, 0, 255⟩] 2 :=
  (threshold_boundary [⟨0, 0, 0, 255⟩, ⟨0, 0, 0, 255⟩] 5 2 (0, 0, 0)
    (by decide) (by decide) (by decide)).2 (by decide)

theorem buildReport_aux (assets : List (String × LoadResult)) :
    ∀ out : List (String × AssetPaletteResult),
      (out.map Prod.fst ++ assets.map Prod.fst).Nodup →
      assets.foldl
        (fun out a =>
          match a.2 with
          | .ok img => dictInsert out a.1 (processAsset img)
          | .error _ => out) out =
      out ++ assets.filterMap
        (fun a =>
          match a.2 with
          | .ok img => some (a.1, processAsset img)
          | .error _ => none) := by
  induction assets with
  | nil =>
    intro out _
    simp
  | cons a t ih =>
    intro out hnd
    obtain ⟨name, res⟩ := a
    simp only [List.map_cons] at hnd
    cases res with
    | error msg =>
      simp only [List.foldl_cons, List.filterMap_cons]
      have hnd2 : (out.map Prod.fst ++ t.map Prod.fst).Nodup := by
        refine hnd.sublist ?_
        exact (List.sublist_cons_self _ _).append_left _
      exact ih out hnd2
    | ok img =>
      simp only [List.foldl_cons, List.filterMap_cons]
      have hname : name ∉ out.map Prod.fst := by
        intro hmem
        have hdisj := (List.nodup_append.mp hnd).2.2
        exact hdisj hmem (List.mem_cons_self _ _)
      have hany : ¬ out.any (fun e => e.1 = name) = true := by
        simp only [List.any_eq_true]
        rintro ⟨e, hemem, hename⟩
        exact hname (List.mem_map.mpr ⟨e, hemem, by simpa using hename⟩)
      have hins : dictInsert out name (processAsset img) =
          out ++ [(name, processAsset img)] := by
        simp [dictInsert, hany]
      rw [hins]
      have hnd2 : ((out ++ [(name, processAsset img)]).map Prod.fst ++
          t.map Prod.fst).Nodup := by
        simpa [List.append_assoc] using hnd
      rw [ih (out ++ [(name, processAsset img)]) hnd2, List.append_assoc,
        List.singleton_append]

/-- C9: when the asset names are distinct, the report built by the batch
loop is exactly the in-order list of successfully loaded assets, each
mapped to its palette result: failed assets leave no entry at all, and
processing continues past them. -/
theorem report_omits_failures (assets : List (String × LoadResult))
    (hnd : (assets.map Prod.fst).Nodup) :
    buildReport assets = assets.filterMap
      (fun a =>
        match a.2 with
        | .ok img => some (a.1, processAsset img)
        | .error _ => none) := by
  have h := buildReport_aux assets [] (by simpa using hnd)
  simpa [buildReport] using h

/-- Closed instance of `report_omits_failures`: one failing and one
succeeding asset produce a one-entry report. -/
theorem report_omits_failures_witness :
    buildReport
      [("bad", Except.error "no PNG data"),
       ("good", Except.ok [⟨200, 10, 5, 255⟩])] =
      [("good", processAsset [⟨200, 10, 5, 255⟩])] := by
  rw [report_omits_failures
    [("bad", Except.error "no PNG data"),
     ("good", Except.ok [⟨200, 10, 5, 255⟩])] (by decide)]
  rfl

theorem pairwise_filter_count (l : List (QC × ℕ))
    (S : QC × ℕ → QC × ℕ → Prop)
    (h : ∀ c : ℕ, (l.filter (fun p => p.2 = c)).Pairwise S) :
    l.Pairwise (fun a b => a.2 = b.2 → S a b) := by
  induction l with
  | nil => simp
  | cons x t ih =>
    refine List.pairwise_cons.mpr ⟨?_, ih ?_⟩
    · intro b hb heq
      have hx := h x.2
      rw [List.filter_cons, if_pos (by simp : (decide (x.2 = x.2)) = true)]
        at hx
      have hb2 : b ∈ t.filter (fun p => p.2 = x.2) :=
        List.mem_filter.mpr ⟨hb, by simp [heq.symm]⟩
      exact (List.pairwise_cons.mp hx).1 b hb2
    · intro c
      have hc := h c
      rw [List.filter_cons] at hc
      by_cases hxc : x.2 = c
      · rw [if_pos (by simp [hxc])] at hc
        exact (List.pairwise_cons.mp hc).2
      · rwa [if_neg (by simp [hxc])] at hc

theorem counter_pairwise_pairs (l : List QC) :
    (counter l).Pairwise (fun a b => firstIdx l a.1 < firstIdx l b.1) := by
  have h := counter_keys_pairwise l
  rw [List.pairwise_map] at h
  exact h

theorem ranked_filter_sub (img : RasterImage) (maxc minp c : ℕ) :
    ((ranked img maxc minp).filter (fun p => p.2 = c)).Sublist
      (counter (quantList img)) := by
  have h1 : ((ranked img maxc minp).filter (fun p => p.2 = c)).Sublist
      ((rankedAll img minp).filter (fun p => p.2 = c)) :=
    (List.take_sublist _ _).filter _
  refine h1.trans ?_
  rw [show (rankedAll img minp).filter (fun p => p.2 = c) =
      (filteredCounts img minp).filter (fun p => p.2 = c) from
    sortDesc_filter_count _ c]
  exact (List.filter_sublist _).trans (List.filter_sublist _)

/-- C10: ties are broken by first occurrence - among ranked entries with
equal counts, the earlier entry's quantized color first occurs earlier in
the image's (opaque, quantized) pixel sequence, because the counting map
records keys in first-insertion order and the descending sort is stable;
the palette is this ranked list formatted entrywise, hence fully
deterministic. -/
theorem palette_tiebreak_first_occurrence (img : RasterImage)
    (maxc minp : ℕ) :
    (ranked img maxc minp).Pairwise
      (fun a b => a.2 = b.2 →
        firstIdx (quantList img) a.1 < firstIdx (quantList img) b.1) ∧
    extract_color_palette img maxc minp =
      (ranked img maxc minp).map (mkEntry (opaquePixels img).length) := by
  refine ⟨?_, extract_eq_map img maxc minp⟩
  refine pairwise_filter_count _ _ ?_
  intro c
  exact (counter_pairwise_pairs (quantList img)).sublist
    (ranked_filter_sub img maxc minp c)

/-- Closed instance of `palette_sorted_desc` on the six-pixel image. -/
theorem palette_sorted_desc_witness :
    (extract_color_palette
      [⟨0, 0, 0, 255⟩, ⟨30, 0, 0, 255⟩, ⟨60, 0, 0, 255⟩,
       ⟨60, 0, 0, 255⟩, ⟨60, 0, 0, 255⟩, ⟨60, 0, 0, 255⟩] 5 1).Pairwise
      (fun a b => b.pixelCount ≤ a.pixelCount) :=
  palette_sorted_desc
    [⟨0, 0, 0, 255⟩, ⟨30, 0, 0, 255⟩, ⟨60, 0, 0, 255⟩,
     ⟨60, 0, 0, 255⟩, ⟨60, 0, 0, 255⟩, ⟨60, 0, 0, 255⟩] 5 1

/-- Closed instance of `palette_length_bound` on the six-pixel image. -/
theorem palette_length_bound_witness :
    (extract_color_palette
      [⟨0, 0, 0, 255⟩, ⟨30, 0, 0, 255⟩, ⟨60, 0, 0, 255⟩,
       ⟨60, 0, 0, 255⟩, ⟨60, 0, 0, 255⟩, ⟨60, 0, 0, 255⟩] 2 1).length ≤
      min 2 (qualifying
        [⟨0, 0, 0, 255⟩, ⟨30, 0, 0, 255⟩, ⟨60, 0, 0, 255⟩,
         ⟨60, 0, 0, 255⟩, ⟨60, 0, 0, 255⟩, ⟨60, 0, 0, 255⟩] 1).card ∧
    extract_color_palette
      [⟨0, 0, 0, 255⟩, ⟨30, 0, 0, 255⟩, ⟨60, 0, 0, 255⟩,
       ⟨60, 0, 0, 255⟩, ⟨60, 0, 0, 255⟩, ⟨60, 0, 0, 255⟩] 0 1 = [] :=
  palette_length_bound
    [⟨0, 0, 0, 255⟩, ⟨30, 0, 0, 255⟩, ⟨60, 0, 0, 255⟩,
     ⟨60, 0, 0, 255⟩, ⟨60, 0, 0, 255⟩, ⟨60, 0, 0, 255⟩] 2 1

/-- Closed instance of `palette_tiebreak_first_occurrence` on the
six-pixel image. -/
theorem palette_tiebreak_first_occurrence_witness :
    (ranked
      [⟨0, 0, 0, 255⟩, ⟨30, 0, 0, 255⟩, ⟨60, 0, 0, 255⟩,
       ⟨60, 0, 0, 255⟩, ⟨60, 0, 0, 255⟩, ⟨60, 0, 0, 255⟩] 5 1).Pairwise
      (fun a b => a.2 = b.2 →
        firstIdx (quantList
          [⟨0, 0, 0, 255⟩, ⟨30, 0, 0, 255⟩, ⟨60, 0, 0, 255⟩,
           ⟨60, 0, 0, 255⟩, ⟨60, 0, 0, 255⟩, ⟨60, 0, 0, 255⟩]) a.1 <
        firstIdx (quantList
          [⟨0, 0, 0, 255⟩, ⟨30, 0, 0, 255⟩, ⟨60, 0, 0, 255⟩,
           ⟨60, 0, 0, 255⟩, ⟨60, 0, 0, 255⟩, ⟨60, 0, 0, 255⟩]) b.1) ∧
    extract_color_palette
      [⟨0, 0, 0, 255⟩, ⟨30, 0, 0, 255⟩, ⟨60, 0, 0, 255⟩,
       ⟨60, 0, 0, 255⟩, ⟨60, 0, 0, 255⟩, ⟨60, 0, 0, 255⟩] 5 1 =
      (ranked
        [⟨0, 0, 0, 255⟩, ⟨30, 0, 0, 255⟩, ⟨60, 0, 0, 255⟩,
         ⟨60, 0, 0, 255⟩, ⟨60, 0, 0, 255⟩, ⟨60, 0, 0, 255⟩] 5 1).map
        (mkEntry (opaquePixels
          [⟨0, 0, 0, 255⟩, ⟨30, 0, 0, 255⟩, ⟨60, 0, 0, 255⟩,
           ⟨60, 0, 0, 255⟩, ⟨60, 0, 0, 255⟩, ⟨60, 0, 0, 255⟩]).length) :=
  palette_tiebreak_first_occurrence
    [⟨0, 0, 0, 255⟩, ⟨30, 0, 0, 255⟩, ⟨60, 0, 0, 255⟩,
     ⟨60, 0, 0, 255⟩, ⟨60, 0, 0, 255⟩, ⟨60, 0, 0, 255⟩] 5 1
